import Mathlib

/-!
# Verification of `scripts/pretty_trace.py`

A shallow embedding of the trace pretty-printer: the selector-decoding
cache, the call-tree builder, the cross-trace correlation heuristic, the
function-map builder, the renderer's per-frame output lines and frame
traversal order, and the input-handling prefix of `main`.

Python dictionaries holding trace frames are modelled as Lean structures;
the mutable global selector cache is modelled by explicit state passing;
the network lookup of `requests.get` is modelled by an oracle function
from selectors to lookup outcomes.
-/

namespace PrettyTrace

/-- One argument descriptor of a call frame (`{name, type, value}`). -/
structure Arg where
  name : String
  type : String
  value : String
deriving DecidableEq, Repr

/-- A primary-trace call frame as read from the Walnut JSON document. -/
structure CallFrame where
  call_id : Int
  parent_call_id : Int
  function : String
  file : String
  line : Int
  args : List Arg
  error : Bool
  error_message : String
deriving DecidableEq, Repr

/-- A secondary-trace (Solidity) call: `from`, `to`, raw `input` payload and
nested child calls (`from`/`to` are reserved words in Lean, hence the
trailing underscores). -/
inductive SolCall where
  | mk (from_ : String) (to_ : String) (input : String) (calls : List SolCall)

/-- The raw `input` payload of a Solidity call. -/
def SolCall.input : SolCall → String
  | .mk _ _ i _ => i

/-- One entry of the 4byte.directory JSON response's `results` array; the
`text_signature` key may be absent. -/
structure LookupEntry where
  text_signature : Option String
deriving DecidableEq, Repr

/-- Outcome of the HTTP lookup in `decode_selector`: any exception raised in
the `try` block (network failure, non-2xx status, malformed JSON body), or a
parsed `results` list. -/
inductive LookupOutcome where
  | err
  | ok (results : List LookupEntry)
deriving DecidableEq, Repr

/-- The in-memory selector cache (`selector_cache`), modelled as an
association list with newest entries in front. -/
abbrev Cache := List (String × String)

/-- Lookup in the selector cache (`sel in selector_cache` / indexing). -/
def cacheLookup (cache : Cache) (sel : String) : Option String :=
  match cache with
  | [] => none
  | (k, v) :: rest => if k = sel then some v else cacheLookup rest sel

/-- Result of one `decode_selector` call: the returned signature, the cache
after the call, and how many external HTTP requests were performed. -/
structure DecodeResult where
  sig : String
  cache : Cache
  requests : Nat
deriving DecidableEq, Repr

/-- The signature computed by the body of `decode_selector`'s `try` block for
a cache miss: `sig` starts as `sel` and is replaced by the first result's
`text_signature` only when the request succeeds, the `results` list is
non-empty and its first entry carries that key. -/
def netSig (net : String → LookupOutcome) (sel : String) : String :=
  match net sel with
  | .err => sel
  | .ok [] => sel
  | .ok (e :: _) =>
    match e.text_signature with
    | some t => t
    | none => sel

/-- `decode_selector`: return the cached signature when present; otherwise
perform one external lookup, fall back to `sel` on any failure, and store the
result in the cache before returning. -/
def decode_selector (net : String → LookupOutcome) (cache : Cache)
    (sel : String) : DecodeResult :=
  match cacheLookup cache sel with
  | some v => ⟨v, cache, 0⟩
  | none => ⟨netSig net sel, (sel, netSig net sel) :: cache, 1⟩

/-- The loop body of `build_call_tree`: a root frame (`parent_call_id = 0`)
is appended to `roots`, any other frame is appended to `tree[p]` for its
parent identifier `p`. -/
def buildStep (acc : List CallFrame × (Int → List CallFrame))
    (c : CallFrame) : List CallFrame × (Int → List CallFrame) :=
  if c.parent_call_id = 0 then
    (acc.1 ++ [c], acc.2)
  else
    (acc.1, fun p => if p = c.parent_call_id then acc.2 p ++ [c] else acc.2 p)

/-- `build_call_tree`: partition an ordered frame list into the root list
(frames whose `parent_call_id` is 0) and a map from parent identifier to the
list of its children, both in input order.  The `defaultdict(list)` is
modelled as a total function defaulting to `[]`. -/
def build_call_tree (call_list : List CallFrame) :
    List CallFrame × (Int → List CallFrame) :=
  call_list.foldl buildStep ([], fun _ => [])

/-- `matches_argument_pattern`: declare a cross-trace match iff the payload
length minus 10 equals the argument count minus 2 (Python `int` subtraction,
hence `Int`). -/
def matches_argument_pattern (args : List Arg) (sol_call : SolCall) : Bool :=
  let input_data := sol_call.input
  let num_of_sol_args : Int := (input_data.length : Int) - 10
  let num_of_rust_args : Int := (args.length : Int) - 2
  if num_of_sol_args = num_of_rust_args then true else false

/-- The external lookup fails in one of the ways listed in the spec: the
request raises (network failure, timeout, non-2xx status, malformed body),
the `results` list is empty, or its first entry carries no `text_signature`
key. -/
def lookupFailed (net : String → LookupOutcome) (sel : String) : Prop :=
  match net sel with
  | .err => True
  | .ok [] => True
  | .ok (e :: _) => e.text_signature = none

/-- The string `decode_selector` returns for `sel` under the current cache:
the cached value when present, otherwise the value derived from the network
oracle.  (`decode_sig_eq_resolveSig` below relates this to the function.) -/
def resolveSig (net : String → LookupOutcome) (cache : Cache)
    (sel : String) : String :=
  match cacheLookup cache sel with
  | some v => v
  | none => netSig net sel

/-- The loop body of `create_sol_function_map`: for a call whose payload is
truthy and at least 10 characters long, decode the first 10 characters (the
`0x`-prefixed 4-byte selector); when the decoded signature contains `(`, map
the name before the first `(` to this call, overwriting any earlier entry.
The selector cache is threaded through `decode_selector`. -/
def solMapStep (net : String → LookupOutcome)
    (acc : (String → Option SolCall) × Cache) (call : SolCall) :
    (String → Option SolCall) × Cache :=
  if call.input ≠ "" ∧ call.input.length ≥ 10 then
    if (decode_selector net acc.2 (call.input.take 10)).sig.contains '(' then
      (fun n =>
          if n = ((decode_selector net acc.2 (call.input.take 10)).sig.splitOn
              "(").headD ""
          then some call else acc.1 n,
        (decode_selector net acc.2 (call.input.take 10)).cache)
    else
      (acc.1, (decode_selector net acc.2 (call.input.take 10)).cache)
  else
    acc

/-- `create_sol_function_map`: fold the step over the top-level secondary
calls, starting from the empty map (`{}` modelled as the constantly-`none`
function) and the current selector cache. -/
def create_sol_function_map (net : String → LookupOutcome) (cache : Cache)
    (sol_calls : List SolCall) : (String → Option SolCall) × Cache :=
  sol_calls.foldl (solMapStep net) ((fun _ => none), cache)

/-- The name (if any) under which one secondary call is recorded, as decided
against a given cache state: defined iff the payload is non-empty, at least
10 characters long, and its decoded selector contains `(`; the name is the
segment before the first `(`. -/
def recordName (net : String → LookupOutcome) (cache : Cache)
    (call : SolCall) : Option String :=
  if call.input ≠ "" ∧ call.input.length ≥ 10 then
    if (resolveSig net cache (call.input.take 10)).contains '(' then
      some (((resolveSig net cache (call.input.take 10)).splitOn "(").headD "")
    else none
  else
    none

/-- `Option.or` specialised, used to state the generalized fold lemma for
`create_sol_function_map`. -/
def orO {α : Type} (a b : Option α) : Option α :=
  match a with
  | some x => some x
  | none => b

/-- Sample root frame `f` (call id 1, parent 0) from the spec's example. -/
def fFrame : CallFrame := ⟨1, 0, "f", "", 0, [], false, ""⟩

/-- Sample child frame `g` (call id 2, parent 1) from the spec's example. -/
def gFrame : CallFrame := ⟨2, 1, "g", "", 0, [], false, ""⟩

/-- The order in which `print_call_node` visits frames below one node: the
node itself, then, in order, the subtrees of `tree[call_id]`.  The renderer
recurses without bound; here recursion is cut off below depth `fuel`, which
loses nothing once `fuel` is at least the input length (every terminating
run of the renderer stays within that depth, since a repeated frame on a
root path would loop forever). -/
def visitNode (tree : Int → List CallFrame) (fuel : Nat) (c : CallFrame) :
    List CallFrame :=
  match fuel with
  | 0 => [c]
  | f + 1 => c :: (tree c.call_id).flatMap (fun ch => visitNode tree f ch)

/-- The frame order of the whole rendered output: `main` builds the tree and
prints each root's subtree in order, pre-order depth-first. -/
def renderTraversal (call_list : List CallFrame) : List CallFrame :=
  (build_call_tree call_list).1.flatMap
    (fun r => visitNode (build_call_tree call_list).2 call_list.length r)

/-- The (first) frame of the list carrying a given identifier. -/
def findFrame (frames : List CallFrame) (i : Int) : Option CallFrame :=
  frames.find? (fun c => c.call_id == i)

/-- The `k`-th ancestor of a frame along parent links: `chain 0 f = f`, and
one more step looks up the parent frame, stopping (`none`) at roots
(`parent_call_id = 0`) or once undefined. -/
def chain (frames : List CallFrame) (k : Nat) (f : CallFrame) :
    Option CallFrame :=
  match k with
  | 0 => some f
  | j + 1 =>
    match chain frames j f with
    | none => none
    | some g =>
      if g.parent_call_id = 0 then none else findFrame frames g.parent_call_id

/-- `c` is an ancestor of `f` (or `f` itself) within `fuel` parent steps. -/
def OnChain (frames : List CallFrame) (fuel : Nat) (f c : CallFrame) : Prop :=
  ∃ k ≤ fuel, chain frames k f = some c

/-- The input frame list is a well-formed forest: identifiers are pairwise
distinct, every non-zero parent identifier belongs to some frame, and the
parent relation is acyclic — rendered, as usual for a finite graph, by the
existence of a rank strictly decreasing from child to parent. -/
def IsForest (frames : List CallFrame) : Prop :=
  (frames.map (fun c => c.call_id)).Nodup
  ∧ (∀ c ∈ frames, c.parent_call_id ≠ 0 →
      ∃ p ∈ frames, p.call_id = c.parent_call_id)
  ∧ ∃ rank : Int → Nat, ∀ c ∈ frames, ∀ p ∈ frames,
      p.call_id = c.parent_call_id → rank p.call_id < rank c.call_id

/-- Frames for the sibling-order counterexample: two distinct frames share
identifier 5, so their common child list is rendered twice. -/
def p1Frame : CallFrame := ⟨5, 0, "p1", "", 0, [], false, ""⟩

/-- Second frame with the duplicated identifier 5. -/
def p2Frame : CallFrame := ⟨5, 0, "p2", "", 0, [], false, ""⟩

/-- First child (input order) of the duplicated parent identifier 5. -/
def aFrame : CallFrame := ⟨7, 5, "a", "", 0, [], false, ""⟩

/-- Second child (input order) of the duplicated parent identifier 5. -/
def bFrame : CallFrame := ⟨9, 5, "b", "", 0, [], false, ""⟩

/-- `colorama.Fore.RED`. -/
def Fore.RED : String := "\x1b[31m"

/-- `colorama.Fore.GREEN`. -/
def Fore.GREEN : String := "\x1b[32m"

/-- `colorama.Fore.YELLOW`. -/
def Fore.YELLOW : String := "\x1b[33m"

/-- `colorama.Fore.BLUE`. -/
def Fore.BLUE : String := "\x1b[34m"

/-- `colorama.Fore.MAGENTA`. -/
def Fore.MAGENTA : String := "\x1b[35m"

/-- `colorama.Fore.CYAN`. -/
def Fore.CYAN : String := "\x1b[36m"

/-- `colorama.Style.RESET_ALL`. -/
def Style.RESET_ALL : String := "\x1b[0m"

/-- The indentation of `print_call_node`: two spaces per level. -/
def padOf (level : Nat) : String := String.mk (List.replicate (level * 2) ' ')

/-- The inline error marker of `print_call_node` (empty for non-error
frames). -/
def error_marker (call : CallFrame) : String :=
  if call.error then " " ++ Fore.RED ++ "✗ ERROR" ++ Style.RESET_ALL else ""

/-- The color applied to the function name: red for error frames, yellow
otherwise. -/
def fn_color (call : CallFrame) : String :=
  if call.error then Fore.RED else Fore.YELLOW

/-- The single line printed for the frame itself by `print_call_node`:
prefix, pad, branch glyph, green `#call_id`, colored function name,
`(file:line)`, and the error marker. -/
def mainLine (pre pad branch : String) (call : CallFrame) : String :=
  pre ++ pad ++ branch
    ++ Fore.GREEN ++ "#" ++ toString call.call_id ++ Style.RESET_ALL ++ " "
    ++ fn_color call ++ call.function ++ Style.RESET_ALL ++ " ("
    ++ call.file ++ ":" ++ toString call.line ++ ")" ++ error_marker call

/-- The (zero or one) indented follow-up line carrying the error message:
printed exactly when the frame is an error and its message is truthy
(non-empty). -/
def errorMessageLines (pre pad : String) (call : CallFrame) : List String :=
  if call.error ∧ call.error_message ≠ "" then
    [pre ++ pad ++ "  " ++ Fore.RED ++ "↳ " ++ call.error_message
      ++ Style.RESET_ALL]
  else []

/-- The fixed rewrite table applied to argument type names. -/
def short_type_of (t : String) : String :=
  ((((((t.replace "alloy_primitives::bits::address::" "").replace
    "alloy_primitives::signed::int::" "").replace
    "alloy_primitives::bits::fixed::" "").replace
    "ruint::" "").replace
    "stylus_sdk::host::" "").replace
    "alloc::vec::" "")

/-- One indented line per argument: name, optionally the simplified type,
and the value (the type segment is omitted when the type is falsy). -/
def argLine (pre pad : String) (arg : Arg) : String :=
  if arg.type ≠ "" then
    pre ++ pad ++ "  " ++ Fore.MAGENTA ++ arg.name ++ Style.RESET_ALL
      ++ ": " ++ Fore.CYAN ++ short_type_of arg.type ++ Style.RESET_ALL
      ++ " = " ++ arg.value
  else
    pre ++ pad ++ "  " ++ Fore.MAGENTA ++ arg.name ++ Style.RESET_ALL
      ++ " = " ++ arg.value

/-- The lines `print_call_node` prints for one frame, in print order: the
main line, then the optional error-message line, then one line per
argument. -/
def renderFrameLines (pre : String) (level : Nat) (is_last : Bool)
    (call : CallFrame) : List String :=
  mainLine pre (padOf level) (if is_last then "└─ " else "├─ ") call
    :: (errorMessageLines pre (padOf level) call
        ++ call.args.map (argLine pre (padOf level)))

/-- A concrete error frame (`error:true`, message `"reverted"`). -/
def errFrame : CallFrame := ⟨3, 0, "boom", "lib.rs", 7, [], true, "reverted"⟩

/-- What `main` can observe about a path: `is_file()` false (`missing`),
existing but `open` raises (`unreadable`), readable but `json.load` raises
(`badJson`), or a readable valid-JSON document (`good`). -/
inductive FileState where
  | missing
  | unreadable
  | badJson
  | good
deriving DecidableEq, Repr

/-- How a run of `main` ends, as far as exit status is concerned:
`usageExit` (usage message, `sys.exit(1)`), `fileErrorExit` (ERROR message,
`sys.exit(1)`), `exception` (uncaught `IOError`/`JSONDecodeError`: traceback
on stderr and non-zero interpreter exit), or `finished` (exit 0). -/
inductive MainOutcome where
  | usageExit
  | fileErrorExit
  | exception
  | finished
deriving DecidableEq, Repr

/-- The input-handling skeleton of `main` (lines 246-294): usage check,
`is_file` check and `json.load` of the required primary path, then — only
when a second positional argument is given — an `is_file` check of the
secondary path whose failure silently skips the secondary trace, and
`json.load` of it when it exists.  Rendering of loaded documents is
abstracted to normal completion (it prints but never changes the exit
path). -/
def mainOutcome (argv : List String) (fs : String → FileState) :
    MainOutcome :=
  match argv with
  | _prog :: walnut_file :: rest =>
    match fs walnut_file with
    | .missing => .fileErrorExit
    | .unreadable => .exception
    | .badJson => .exception
    | .good =>
      match rest with
      | [] => .finished
      | sol_file :: _ =>
        match fs sol_file with
        | .missing => .finished
        | .unreadable => .exception
        | .badJson => .exception
        | .good => .finished
  | _ => .usageExit

/-- The input paths supplied on the command line (positions 1 and 2). -/
def suppliedPaths (argv : List String) : List String := (argv.drop 1).take 2

/-- Whether the outcome is a termination with non-zero exit status (each
such exit is accompanied by a console diagnostic: the usage line, the ERROR
line, or the interpreter traceback). -/
def isErrorExit : MainOutcome → Bool
  | .finished => false
  | _ => true

section BuildLemmas

/-- The root component of the `build_call_tree` fold, with a general
accumulator: it grows by the frames whose parent identifier is 0. -/
theorem build_foldl_fst (l : List CallFrame)
    (r0 : List CallFrame) (t0 : Int → List CallFrame) :
    (l.foldl buildStep (r0, t0)).1 =
      r0 ++ l.filter (fun c => c.parent_call_id = 0) := by
  induction l generalizing r0 t0 with
  | nil => simp
  | cons c rest ih =>
    by_cases hc : c.parent_call_id = 0
    · simp [buildStep, hc, ih, List.filter_cons]
    · simp [buildStep, hc, ih, List.filter_cons]

/-- The tree component of the `build_call_tree` fold, with a general
accumulator: the child list at `p` grows by the frames whose parent
identifier is `p`, except at key 0 where nothing is ever appended. -/
theorem build_foldl_snd (l : List CallFrame)
    (r0 : List CallFrame) (t0 : Int → List CallFrame) (p : Int) :
    (l.foldl buildStep (r0, t0)).2 p =
      t0 p ++ (if p = 0 then [] else l.filter (fun c => c.parent_call_id = p)) := by
  induction l generalizing r0 t0 with
  | nil => by_cases hp : p = 0 <;> simp [hp]
  | cons c rest ih =>
    by_cases hc : c.parent_call_id = 0
    · have hstep : buildStep (r0, t0) c = (r0 ++ [c], t0) := by
        simp [buildStep, hc]
      rw [List.foldl_cons, hstep, ih]
      by_cases hp : p = 0
      · simp [hp]
      · have hcp : ¬ (c.parent_call_id = p) := fun h => hp (h ▸ hc)
        simp [hp, List.filter_cons, hcp]
    · have hstep : buildStep (r0, t0) c =
          (r0, fun q => if q = c.parent_call_id then t0 q ++ [c] else t0 q) := by
        simp [buildStep, hc]
      rw [List.foldl_cons, hstep, ih]
      by_cases hp : p = 0
      · subst hp
        have h0 : ¬ ((0 : Int) = c.parent_call_id) := fun h => hc h.symm
        simp [h0]
      · by_cases hpc : p = c.parent_call_id
        · subst hpc
          simp [hp, List.filter_cons, List.append_assoc]
        · have hcp : ¬ (c.parent_call_id = p) := fun h => hpc h.symm
          simp [hp, hpc, List.filter_cons, hcp]

/-- The root list of `build_call_tree` is the input filtered to
`parent_call_id = 0`. -/
theorem build_roots_eq (l : List CallFrame) :
    (build_call_tree l).1 = l.filter (fun c => c.parent_call_id = 0) := by
  unfold build_call_tree
  rw [build_foldl_fst]
  simp

/-- The child list of `build_call_tree` at key `p` is the input filtered to
`parent_call_id = p` for `p ≠ 0`, and `[]` at key 0. -/
theorem build_tree_eq (l : List CallFrame) (p : Int) :
    (build_call_tree l).2 p =
      if p = 0 then [] else l.filter (fun c => c.parent_call_id = p) := by
  unfold build_call_tree
  rw [build_foldl_snd]
  simp

end BuildLemmas

/-- C1: the correlation predicate `matches_argument_pattern` declares a match
iff (payload length − 10) equals (argument count − 2); in particular a frame
with 4 arguments matches a secondary call whose payload after the 10-character
prefix has length 2 (total length 12), and does not match one whose payload
after the prefix has length 3 (total length 13). -/
theorem C1_matches_argument_pattern_iff :
    (∀ (args : List Arg) (sol_call : SolCall),
        matches_argument_pattern args sol_call = true ↔
          (sol_call.input.length : Int) - 10 = (args.length : Int) - 2)
    ∧ matches_argument_pattern (List.replicate 4 (Arg.mk "" "" ""))
        (SolCall.mk "" "" "0xaabbccdd12" []) = true
    ∧ matches_argument_pattern (List.replicate 4 (Arg.mk "" "" ""))
        (SolCall.mk "" "" "0xaabbccdd123" []) = false := by
  refine ⟨?_, by decide, by decide⟩
  intro args sol_call
  simp only [matches_argument_pattern]
  split <;> simp_all

/-- C2: `build_call_tree` places a frame in the root list iff its parent
identifier is 0 and appends every other frame to the child list keyed by its
parent identifier (nothing is ever stored under key 0); on the two-frame
example `[f (id 1, parent 0), g (id 2, parent 1)]` the root list is `[f]` and
the child list of identifier 1 is `[g]`. -/
theorem C2_build_call_tree_spec :
    (∀ (l : List CallFrame),
        (build_call_tree l).1 = l.filter (fun c => c.parent_call_id = 0)
        ∧ ∀ p : Int,
            (build_call_tree l).2 p =
              if p = 0 then [] else l.filter (fun c => c.parent_call_id = p))
    ∧ (build_call_tree [fFrame, gFrame]).1 = [fFrame]
    ∧ (build_call_tree [fFrame, gFrame]).2 1 = [gFrame] := by
  refine ⟨fun l => ⟨build_roots_eq l, fun p => build_tree_eq l p⟩, by decide, by decide⟩

/-- On a failed lookup the computed signature is the selector itself. -/
theorem netSig_of_failed (net : String → LookupOutcome) (sel : String)
    (h : lookupFailed net sel) : netSig net sel = sel := by
  unfold lookupFailed at h
  unfold netSig
  cases hn : net sel with
  | err => rfl
  | ok results =>
    cases results with
    | nil => rfl
    | cons e rest =>
      rw [hn] at h
      dsimp only at h ⊢
      rw [h]

/-- C5: `decode_selector` stores its result in the cache before returning;
with the identifier already cached it returns the cached value and performs
no external request; hence two consecutive calls with the same identifier
perform at most one external request in total and return the same string. -/
theorem C5_decode_selector_cache_behavior :
    ∀ (net : String → LookupOutcome) (cache : Cache) (sel : String),
      cacheLookup (decode_selector net cache sel).cache sel =
          some (decode_selector net cache sel).sig
      ∧ (∀ v, cacheLookup cache sel = some v →
            decode_selector net cache sel = ⟨v, cache, 0⟩)
      ∧ (decode_selector net (decode_selector net cache sel).cache sel).sig =
          (decode_selector net cache sel).sig
      ∧ (decode_selector net cache sel).requests +
          (decode_selector net (decode_selector net cache sel).cache sel).requests ≤ 1 := by
  intro net cache sel
  cases h : cacheLookup cache sel with
  | some v => simp [decode_selector, h]
  | none =>
    refine ⟨?_, ?_, ?_, ?_⟩ <;>
      simp [decode_selector, h, cacheLookup]

/-- Witness for C5 at a concrete cached identifier: the second conjunct
applies with the cache already holding the selector, so the call performs no
request and returns the cached value. -/
theorem C5_witness :
    decode_selector (fun _ => LookupOutcome.err)
        [("0xaabbccdd", "foo()")] "0xaabbccdd" =
      ⟨"foo()", [("0xaabbccdd", "foo()")], 0⟩ :=
  (C5_decode_selector_cache_behavior (fun _ => LookupOutcome.err)
    [("0xaabbccdd", "foo()")] "0xaabbccdd").2.1 "foo()" (by decide)

/-- C6: for an uncached identifier whose external lookup fails in any way
(exception, malformed response, timeout, or empty result list),
`decode_selector` returns the identifier unchanged (and, being a total
function, cannot raise), records that fallback in the cache, and a repeat
call with the same identifier hits the cache and performs no request. -/
theorem C6_decode_selector_failure_fallback :
    ∀ (net : String → LookupOutcome) (cache : Cache) (sel : String),
      cacheLookup cache sel = none →
      lookupFailed net sel →
      (decode_selector net cache sel).sig = sel
      ∧ cacheLookup (decode_selector net cache sel).cache sel = some sel
      ∧ decode_selector net (decode_selector net cache sel).cache sel =
          ⟨sel, (decode_selector net cache sel).cache, 0⟩ := by
  intro net cache sel hmiss hfail
  have hs := netSig_of_failed net sel hfail
  simp [decode_selector, hmiss, hs, cacheLookup]

/-- Witness for C6: with an empty cache and a lookup oracle that always
raises, decoding `"0x12345678"` falls back to the identifier itself. -/
theorem C6_witness :
    (decode_selector (fun _ => LookupOutcome.err) [] "0x12345678").sig =
        "0x12345678"
      ∧ cacheLookup (decode_selector (fun _ => LookupOutcome.err) []
          "0x12345678").cache "0x12345678" = some "0x12345678"
      ∧ decode_selector (fun _ => LookupOutcome.err)
          (decode_selector (fun _ => LookupOutcome.err) [] "0x12345678").cache
          "0x12345678" =
        ⟨"0x12345678",
          (decode_selector (fun _ => LookupOutcome.err) [] "0x12345678").cache,
          0⟩ :=
  C6_decode_selector_failure_fallback (fun _ => LookupOutcome.err) []
    "0x12345678" rfl trivial

/-- The signature component of `decode_selector` is `resolveSig`. -/
theorem decode_sig_eq_resolveSig (net : String → LookupOutcome)
    (cache : Cache) (sel : String) :
    (decode_selector net cache sel).sig = resolveSig net cache sel := by
  cases h : cacheLookup cache sel <;> simp [decode_selector, resolveSig, h]

/-- Running `decode_selector` never changes what later decodes resolve to:
the entry it may add holds exactly the value `resolveSig` already assigned. -/
theorem resolveSig_decode_stable (net : String → LookupOutcome)
    (cache : Cache) (sel sel' : String) :
    resolveSig net (decode_selector net cache sel).cache sel' =
      resolveSig net cache sel' := by
  cases h : cacheLookup cache sel with
  | some v => simp [decode_selector, h]
  | none =>
    simp only [decode_selector, h]
    by_cases hss : sel = sel'
    · subst hss
      simp [resolveSig, cacheLookup, h]
    · simp [resolveSig, cacheLookup, hss]

/-- The cache after one `solMapStep` resolves every selector the same way
as the cache before it. -/
theorem solMapStep_snd_resolve (net : String → LookupOutcome)
    (acc : (String → Option SolCall) × Cache) (call : SolCall) (sel' : String) :
    resolveSig net (solMapStep net acc call).2 sel' = resolveSig net acc.2 sel' := by
  unfold solMapStep
  by_cases hin : call.input ≠ "" ∧ call.input.length ≥ 10
  · rw [if_pos hin]
    by_cases hpar :
        (decode_selector net acc.2 (call.input.take 10)).sig.contains '(' = true
    · rw [if_pos hpar]
      exact resolveSig_decode_stable net acc.2 (call.input.take 10) sel'
    · rw [if_neg hpar]
      exact resolveSig_decode_stable net acc.2 (call.input.take 10) sel'
  · rw [if_neg hin]

/-- `recordName` is invariant under the cache evolution of one
`solMapStep`. -/
theorem recordName_solMapStep_stable (net : String → LookupOutcome)
    (acc : (String → Option SolCall) × Cache) (call c' : SolCall) :
    recordName net (solMapStep net acc call).2 c' = recordName net acc.2 c' := by
  unfold recordName
  simp only [solMapStep_snd_resolve]

/-- The map component after a `solMapStep` that records `call` under `m`. -/
theorem solMapStep_fst_of_rec (net : String → LookupOutcome)
    (fmap : String → Option SolCall) (cache : Cache) (call : SolCall)
    (m : String) (h : recordName net cache call = some m) (n : String) :
    (solMapStep net (fmap, cache) call).1 n =
      if n = m then some call else fmap n := by
  unfold recordName at h
  by_cases hin : call.input ≠ "" ∧ call.input.length ≥ 10
  · rw [if_pos hin] at h
    by_cases hpar :
        (resolveSig net cache (call.input.take 10)).contains '(' = true
    · rw [if_pos hpar] at h
      have hm : ((resolveSig net cache (call.input.take 10)).splitOn "(").headD ""
          = m := Option.some.inj h
      unfold solMapStep
      rw [if_pos hin]
      rw [if_pos (show (decode_selector net (fmap, cache).2
          (call.input.take 10)).sig.contains '(' = true by
        rw [decode_sig_eq_resolveSig]; exact hpar)]
      dsimp only
      rw [decode_sig_eq_resolveSig, hm]
    · rw [if_neg hpar] at h
      exact absurd h (by simp)
  · rw [if_neg hin] at h
    exact absurd h (by simp)

/-- The map component is unchanged by a `solMapStep` that records nothing. -/
theorem solMapStep_fst_of_none (net : String → LookupOutcome)
    (fmap : String → Option SolCall) (cache : Cache) (call : SolCall)
    (h : recordName net cache call = none) :
    (solMapStep net (fmap, cache) call).1 = fmap := by
  unfold recordName at h
  unfold solMapStep
  by_cases hin : call.input ≠ "" ∧ call.input.length ≥ 10
  · rw [if_pos hin] at h
    by_cases hpar :
        (resolveSig net cache (call.input.take 10)).contains '(' = true
    · rw [if_pos hpar] at h
      exact absurd h (by simp)
    · rw [if_pos hin]
      rw [if_neg (show ¬ (decode_selector net (fmap, cache).2
          (call.input.take 10)).sig.contains '(' = true by
        rw [decode_sig_eq_resolveSig]; exact hpar)]
  · rw [if_neg hin]

/-- `getLast?` of a cons, phrased with `orO`. -/
theorem getLast?_cons_orO {α : Type} (a : α) (l : List α) :
    (a :: l).getLast? = orO l.getLast? (some a) := by
  induction l generalizing a with
  | nil => rfl
  | cons b m ih =>
    rw [List.getLast?_cons_cons, ih b]
    cases m.getLast? <;> rfl

/-- Generalized fold characterization of `create_sol_function_map`: the
final map at `name` is the last input call recorded under `name`, falling
back to the initial map. -/
theorem solMap_foldl_spec (net : String → LookupOutcome)
    (sol_calls : List SolCall) (fmap : String → Option SolCall)
    (cache : Cache) (name : String) :
    (sol_calls.foldl (solMapStep net) (fmap, cache)).1 name =
      orO ((sol_calls.filter
            (fun c => decide (recordName net cache c = some name))).getLast?)
          (fmap name) := by
  induction sol_calls generalizing fmap cache with
  | nil => rfl
  | cons call rest ih =>
    rw [List.foldl_cons]
    have hstep :
        solMapStep net (fmap, cache) call =
          ((solMapStep net (fmap, cache) call).1,
            (solMapStep net (fmap, cache) call).2) := rfl
    rw [hstep, ih]
    have hfilter :
        rest.filter
            (fun c => decide (recordName net (solMapStep net (fmap, cache) call).2 c
              = some name)) =
          rest.filter (fun c => decide (recordName net cache c = some name)) := by
      apply List.filter_congr
      intro c _
      rw [recordName_solMapStep_stable net (fmap, cache) call c]
    rw [hfilter, List.filter_cons]
    cases hrec : recordName net cache call with
    | some m =>
      rw [solMapStep_fst_of_rec net fmap cache call m hrec name]
      by_cases hm : m = name
      · subst hm
        rw [if_pos rfl,
          if_pos (show decide (some m = some m) = true by simp),
          getLast?_cons_orO]
        cases (rest.filter
            (fun c => decide (recordName net cache c = some m))).getLast? <;> rfl
      · have h1 : ¬ (decide (some m = some name) = true) := by simp [hm]
        have h2 : ¬ (name = m) := fun h => hm h.symm
        rw [if_neg h2, if_neg h1]
    | none =>
      rw [if_neg (by simp [hrec]), solMapStep_fst_of_none net fmap cache call hrec]

/-- C7: the function map built by `create_sol_function_map` sends a name to
the last secondary call in input order whose payload is non-empty, at least
10 characters long, and whose decoded 10-character selector contains an
opening parenthesis with the segment before it equal to that name; names not
arising this way are unmapped, and an earlier recording under the same name
is overwritten by a later one (last-write-wins via `getLast?`). -/
theorem C7_create_sol_function_map_spec :
    ∀ (net : String → LookupOutcome) (cache : Cache)
      (sol_calls : List SolCall) (name : String),
      (create_sol_function_map net cache sol_calls).1 name =
        (sol_calls.filter
          (fun c => decide (recordName net cache c = some name))).getLast? := by
  intro net cache sol_calls name
  unfold create_sol_function_map
  rw [solMap_foldl_spec]
  cases (sol_calls.filter
      (fun c => decide (recordName net cache c = some name))).getLast? <;> rfl

/-- Frames with parent `q` are counted by the multiplicity of `q` among the
parent identifiers. -/
theorem length_filter_parent_eq_count (l : List CallFrame) (q : Int) :
    (l.filter (fun c => c.parent_call_id = q)).length =
      (l.map (fun c => c.parent_call_id)).count q := by
  induction l with
  | nil => rfl
  | cons c t ih =>
    simp only [List.filter_cons, List.map_cons, List.count_cons]
    by_cases h : c.parent_call_id = q
    · simp [h, ih]
    · simp [h, fun hq : q = c.parent_call_id => h hq.symm, ih]

/-- C10: with no precondition on the input (cycles, missing parents and
duplicate identifiers allowed), `build_call_tree` places each frame in
exactly one bucket: the length of the root list plus the lengths of the
child lists over all (distinct, non-zero) parent identifiers equals the
length of the input; and the builder is a total function, so it cannot raise
on any frame carrying a `parent_call_id`. -/
theorem C10_build_call_tree_partition :
    ∀ l : List CallFrame,
      (build_call_tree l).1.length +
        ∑ p in (l.map (fun c => c.parent_call_id)).toFinset.erase 0,
          ((build_call_tree l).2 p).length = l.length := by
  intro l
  rw [build_roots_eq]
  rw [Finset.sum_congr rfl
    (fun p hp => by
      rw [build_tree_eq, if_neg (Finset.ne_of_mem_erase hp),
        length_filter_parent_eq_count])]
  rw [length_filter_parent_eq_count]
  have hlen : (l.map (fun c => c.parent_call_id)).length = l.length := by simp
  rw [← hlen, ← List.sum_toFinset_count_eq_length]
  by_cases h0 : (0 : Int) ∈ (l.map (fun c => c.parent_call_id)).toFinset
  · exact Finset.add_sum_erase
      (l.map (fun c => c.parent_call_id)).toFinset
      (fun p => (l.map (fun c => c.parent_call_id)).count p) h0
  · rw [Finset.erase_eq_of_not_mem h0]
    have hz : (l.map (fun c => c.parent_call_id)).count 0 = 0 := by
      rw [List.count_eq_zero]
      intro hmem
      exact h0 (List.mem_toFinset.mpr hmem)
    rw [hz, Nat.zero_add]

section ChainLemmas

variable (frames : List CallFrame)

/-- A successful `findFrame` returns a member of the list carrying the
requested identifier. -/
theorem findFrame_mem_eq {i : Int} {c : CallFrame}
    (h : findFrame frames i = some c) : c ∈ frames ∧ c.call_id = i := by
  refine ⟨List.mem_of_find?_eq_some h, ?_⟩
  have := List.find?_some h
  simpa using this

/-- With pairwise-distinct identifiers, looking up a member's identifier
finds that member. -/
theorem findFrame_self (hnodup : (frames.map (fun c => c.call_id)).Nodup)
    {c : CallFrame} (hc : c ∈ frames) :
    findFrame frames c.call_id = some c := by
  unfold findFrame
  induction frames with
  | nil => cases hc
  | cons a t ih =>
    rw [List.map_cons, List.nodup_cons] at hnodup
    rcases List.mem_cons.mp hc with h | h
    · subst h
      simp [List.find?_cons]
    · have hne : (a.call_id == c.call_id) = false := by
        rw [beq_eq_false_iff_ne]
        intro heq
        exact hnodup.1 (heq ▸ List.mem_map_of_mem (fun x => x.call_id) h)
      rw [List.find?_cons, hne]
      exact ih hnodup.2 h

/-- With pairwise-distinct identifiers, a frame is determined by its
identifier. -/
theorem frame_id_inj (hnodup : (frames.map (fun c => c.call_id)).Nodup)
    {c d : CallFrame} (hc : c ∈ frames) (hd : d ∈ frames)
    (h : c.call_id = d.call_id) : c = d := by
  have h1 := findFrame_self frames hnodup hc
  have h2 := findFrame_self frames hnodup hd
  rw [h] at h1
  rw [h1] at h2
  exact Option.some.inj h2

/-- Unfolding one ancestor step. -/
theorem chain_succ (j : Nat) (f : CallFrame) :
    chain frames (j + 1) f =
      match chain frames j f with
      | none => none
      | some g =>
        if g.parent_call_id = 0 then none
        else findFrame frames g.parent_call_id := rfl

/-- Ancestor chains compose: `a + b` steps are `b` steps from the `a`-th
ancestor. -/
theorem chain_comp (b a : Nat) (f : CallFrame) :
    chain frames (a + b) f =
      match chain frames a f with
      | none => none
      | some g => chain frames b g := by
  induction b with
  | zero =>
    show chain frames a f = _
    cases h : chain frames a f with
    | none => rfl
    | some g => rfl
  | succ b ih =>
    rw [show a + (b + 1) = (a + b) + 1 from rfl, chain_succ, ih]
    cases h : chain frames a f with
    | none => rfl
    | some g =>
      dsimp only
      rw [chain_succ]

/-- Below a root the chain is empty: from a frame with parent 0, every
positive number of steps yields `none`. -/
theorem chain_none_of_root {g : CallFrame} (hg : g.parent_call_id = 0)
    (b : Nat) : chain frames (b + 1) g = none := by
  induction b with
  | zero => simp [chain, hg]
  | succ b ih => rw [chain_succ, ih]

/-- Every defined chain position of a member is a member. -/
theorem chain_mem {f c : CallFrame} (hf : f ∈ frames) :
    ∀ k, chain frames k f = some c → c ∈ frames := by
  intro k
  induction k with
  | zero =>
    intro h
    exact (Option.some.inj h) ▸ hf
  | succ j ih =>
    intro h
    rw [chain_succ] at h
    cases hj : chain frames j f with
    | none => rw [hj] at h; exact absurd h (by simp)
    | some g =>
      rw [hj] at h
      dsimp only at h
      by_cases hp : g.parent_call_id = 0
      · rw [if_pos hp] at h; exact absurd h (by simp)
      · rw [if_neg hp] at h
        exact (findFrame_mem_eq frames h).1

/-- Along a defined chain of positive length the rank strictly drops
(children have larger rank than parents). -/
theorem chain_rank_lt (rank : Int → Nat)
    (hrank : ∀ c ∈ frames, ∀ p ∈ frames,
      p.call_id = c.parent_call_id → rank p.call_id < rank c.call_id) :
    ∀ (k : Nat) (f c : CallFrame), f ∈ frames →
      chain frames (k + 1) f = some c → rank c.call_id < rank f.call_id := by
  intro k
  induction k with
  | zero =>
    intro f c hf h
    rw [chain_succ] at h
    dsimp only [chain] at h
    by_cases hp : f.parent_call_id = 0
    · rw [if_pos hp] at h; exact absurd h (by simp)
    · rw [if_neg hp] at h
      obtain ⟨hcm, hci⟩ := findFrame_mem_eq frames h
      exact hrank f hf c hcm hci
  | succ j ih =>
    intro f c hf h
    rw [chain_succ] at h
    cases hj : chain frames (j + 1) f with
    | none => rw [hj] at h; exact absurd h (by simp)
    | some g =>
      rw [hj] at h
      dsimp only at h
      by_cases hp : g.parent_call_id = 0
      · rw [if_pos hp] at h; exact absurd h (by simp)
      · rw [if_neg hp] at h
        obtain ⟨hcm, hci⟩ := findFrame_mem_eq frames h
        have hg : g ∈ frames := chain_mem frames hf (j + 1) hj
        exact lt_trans (hrank g hg c hcm hci) (ih f g hf hj)

/-- A frame occurs at no more than one position of a chain. -/
theorem chain_pos_unique (rank : Int → Nat)
    (hrank : ∀ c ∈ frames, ∀ p ∈ frames,
      p.call_id = c.parent_call_id → rank p.call_id < rank c.call_id)
    {f c : CallFrame} (hf : f ∈ frames) {j k : Nat}
    (hj : chain frames j f = some c) (hk : chain frames k f = some c) :
    j = k := by
  rcases Nat.lt_trichotomy j k with h | h | h
  · exfalso
    have hdiff : k = j + ((k - j - 1) + 1) := by omega
    rw [hdiff, chain_comp, hj] at hk
    have hcm : c ∈ frames := chain_mem frames hf j hj
    exact lt_irrefl _ (chain_rank_lt frames rank hrank (k - j - 1) c c hcm hk)
  · exact h
  · exfalso
    have hdiff : j = k + ((j - k - 1) + 1) := by omega
    rw [hdiff, chain_comp, hk] at hj
    have hcm : c ∈ frames := chain_mem frames hf k hk
    exact lt_irrefl _ (chain_rank_lt frames rank hrank (j - k - 1) c c hcm hj)

end ChainLemmas

section SumHelpers

/-- A sum over a duplicate-free list is 1 when exactly one element
contributes 1 and all others contribute 0. -/
theorem sum_map_eq_one {α : Type} (L : List α) (fn : α → Nat) (g0 : α)
    (hnd : L.Nodup) (hg : g0 ∈ L) (h1 : fn g0 = 1)
    (h0 : ∀ g ∈ L, g ≠ g0 → fn g = 0) : (L.map fn).sum = 1 := by
  induction L with
  | nil => cases hg
  | cons a t ih =>
    rw [List.map_cons, List.sum_cons]
    rcases List.mem_cons.mp hg with h | h
    · subst h
      have ht : (t.map fn).sum = 0 := by
        apply List.sum_eq_zero
        intro x hx
        obtain ⟨g, hgt, rfl⟩ := List.mem_map.mp hx
        exact h0 g (List.mem_cons_of_mem _ hgt)
          (fun he => (List.nodup_cons.mp hnd).1 (he ▸ hgt))
      rw [h1, ht]
    · have ha : fn a = 0 :=
        h0 a (List.mem_cons_self a t)
          (fun he => (List.nodup_cons.mp hnd).1 (he ▸ h))
      rw [ha, ih (List.nodup_cons.mp hnd).2 h
        (fun g hgt hne => h0 g (List.mem_cons_of_mem _ hgt) hne),
        Nat.zero_add]

/-- A concatenation over a duplicate-free list collapses to the one
non-empty block. -/
theorem flatMap_eq_of_unique {α β : Type} (L : List α) (fn : α → List β)
    (g0 : α) (hnd : L.Nodup) (hg : g0 ∈ L)
    (h0 : ∀ g ∈ L, g ≠ g0 → fn g = []) : L.flatMap fn = fn g0 := by
  induction L with
  | nil => cases hg
  | cons a t ih =>
    rw [List.flatMap_cons]
    rcases List.mem_cons.mp hg with h | h
    · subst h
      have ht : t.flatMap fn = [] :=
        List.flatMap_eq_nil_iff.mpr
          (fun g hgt => h0 g (List.mem_cons_of_mem _ hgt)
            (fun he => (List.nodup_cons.mp hnd).1 (he ▸ hgt)))
      rw [ht, List.append_nil]
    · rw [h0 a (List.mem_cons_self a t)
          (fun he => (List.nodup_cons.mp hnd).1 (he ▸ h)),
        List.nil_append]
      exact ih (List.nodup_cons.mp hnd).2 h
        (fun g hgt hne => h0 g (List.mem_cons_of_mem _ hgt) hne)

end SumHelpers

section TreeMembership

variable (frames : List CallFrame)

/-- Elements of a child list of the built tree: members of the input with
the matching non-zero parent identifier. -/
theorem mem_tree_elim {q : Int} {g : CallFrame}
    (hg : g ∈ (build_call_tree frames).2 q) :
    g ∈ frames ∧ g.parent_call_id = q ∧ q ≠ 0 := by
  rw [build_tree_eq] at hg
  by_cases h0 : q = 0
  · rw [if_pos h0] at hg; cases hg
  · rw [if_neg h0] at hg
    exact ⟨(List.mem_filter.mp hg).1,
      by simpa using (List.mem_filter.mp hg).2, h0⟩

/-- Conversely, a member with matching non-zero parent is in the child
list. -/
theorem mem_tree_intro {q : Int} {g : CallFrame} (hq : q ≠ 0)
    (hgm : g ∈ frames) (hgp : g.parent_call_id = q) :
    g ∈ (build_call_tree frames).2 q := by
  rw [build_tree_eq, if_neg hq]
  exact List.mem_filter.mpr ⟨hgm, by simpa using hgp⟩

/-- Child lists of the built tree are duplicate-free when the input is. -/
theorem tree_nodup (hfr : frames.Nodup) (q : Int) :
    ((build_call_tree frames).2 q).Nodup := by
  rw [build_tree_eq]
  by_cases h0 : q = 0
  · rw [if_pos h0]; exact List.nodup_nil
  · rw [if_neg h0]; exact hfr.filter _

/-- The root list consists of the members with parent identifier 0. -/
theorem mem_roots_iff {r : CallFrame} :
    r ∈ (build_call_tree frames).1 ↔ r ∈ frames ∧ r.parent_call_id = 0 := by
  rw [build_roots_eq, List.mem_filter]
  constructor
  · exact fun ⟨h1, h2⟩ => ⟨h1, by simpa using h2⟩
  · exact fun ⟨h1, h2⟩ => ⟨h1, by simpa using h2⟩

/-- One parent step up from a member of `tree[c.call_id]` lands on `c`. -/
theorem chain_step_child (hnodup : (frames.map (fun c => c.call_id)).Nodup)
    {c g f : CallFrame} (hc : c ∈ frames)
    (hg : g ∈ (build_call_tree frames).2 c.call_id) {j : Nat}
    (hcj : chain frames j f = some g) :
    chain frames (j + 1) f = some c := by
  obtain ⟨hgm, hgp, hq⟩ := mem_tree_elim frames hg
  rw [chain_succ, hcj]
  dsimp only
  rw [if_neg (by rw [hgp]; exact hq), hgp]
  exact findFrame_self frames hnodup hc

/-- Everything visited below a member is a member. -/
theorem visitNode_mem :
    ∀ (fuel : Nat) (c x : CallFrame), c ∈ frames →
      x ∈ visitNode (build_call_tree frames).2 fuel c → x ∈ frames := by
  intro fuel
  induction fuel with
  | zero =>
    intro c x hc hx
    rw [show visitNode (build_call_tree frames).2 0 c = [c] from rfl] at hx
    rwa [List.mem_singleton.mp hx]
  | succ n ih =>
    intro c x hc hx
    rw [show visitNode (build_call_tree frames).2 (n + 1) c =
        c :: ((build_call_tree frames).2 c.call_id).flatMap
          (fun ch => visitNode (build_call_tree frames).2 n ch) from rfl] at hx
    rcases List.mem_cons.mp hx with h | h
    · rwa [h]
    · obtain ⟨ch, hch, hxch⟩ := List.mem_flatMap.mp h
      exact ih ch x (mem_tree_elim frames hch).1 hxch

end TreeMembership

section CountVisit

/-- The multiplicity of a frame `f` in the pre-order traversal below `c` is
1 when `c` is an ancestor-or-self of `f` within the depth budget, and 0
otherwise. -/
theorem count_visitNode (frames : List CallFrame) (rank : Int → Nat)
    (hnodup : (frames.map (fun c => c.call_id)).Nodup)
    (hrank : ∀ c ∈ frames, ∀ p ∈ frames,
      p.call_id = c.parent_call_id → rank p.call_id < rank c.call_id) :
    ∀ (fuel : Nat) (c f : CallFrame), c ∈ frames → f ∈ frames →
      (OnChain frames fuel f c →
        (visitNode (build_call_tree frames).2 fuel c).count f = 1)
      ∧ (¬ OnChain frames fuel f c →
        (visitNode (build_call_tree frames).2 fuel c).count f = 0) := by
  intro fuel
  induction fuel with
  | zero =>
    intro c f hc hf
    constructor
    · rintro ⟨k, hk, hck⟩
      have hk0 : k = 0 := Nat.le_zero.mp hk
      subst hk0
      have hfc : f = c := Option.some.inj hck
      simp [visitNode, hfc]
    · intro h
      have hfc : f ≠ c := fun he => h ⟨0, Nat.le_refl 0, by simp [chain, he]⟩
      simp [visitNode, hfc]
  | succ n ih =>
    intro c f hc hf
    have hexp : visitNode (build_call_tree frames).2 (n + 1) c =
        c :: ((build_call_tree frames).2 c.call_id).flatMap
          (fun ch => visitNode (build_call_tree frames).2 n ch) := rfl
    by_cases hfc : f = c
    · subst hfc
      have hon : OnChain frames (n + 1) f f := ⟨0, Nat.zero_le _, rfl⟩
      refine ⟨fun _ => ?_, fun hno => absurd hon hno⟩
      rw [hexp, List.count_cons, List.count_flatMap]
      have hsum : (((build_call_tree frames).2 f.call_id).map
          (List.count f ∘ fun ch =>
            visitNode (build_call_tree frames).2 n ch)).sum = 0 := by
        apply List.sum_eq_zero
        intro x hx
        obtain ⟨g, hgmem, rfl⟩ := List.mem_map.mp hx
        show List.count f (visitNode (build_call_tree frames).2 n g) = 0
        apply (ih g f (mem_tree_elim frames hgmem).1 hf).2
        rintro ⟨k, hk, hck⟩
        have hstep := chain_step_child frames hnodup hc hgmem hck
        exact Nat.succ_ne_zero k
          (chain_pos_unique frames rank hrank hf hstep rfl)
      rw [hsum]
      simp
    · constructor
      · rintro ⟨k, hk, hckfull⟩
        have hk0 : k ≠ 0 := by
          intro h0
          subst h0
          exact hfc (Option.some.inj hckfull)
        obtain ⟨k', rfl⟩ : ∃ k', k = k' + 1 := ⟨k - 1, by omega⟩
        have hk' : k' ≤ n := by omega
        have hck := hckfull
        rw [chain_succ] at hck
        cases hj : chain frames k' f with
        | none => rw [hj] at hck; exact absurd hck (by simp)
        | some g0 =>
          rw [hj] at hck
          dsimp only at hck
          by_cases hp : g0.parent_call_id = 0
          · rw [if_pos hp] at hck; exact absurd hck (by simp)
          · rw [if_neg hp] at hck
            obtain ⟨hcm', hci⟩ := findFrame_mem_eq frames hck
            have hg0m : g0 ∈ frames := chain_mem frames hf k' hj
            have hg0tree : g0 ∈ (build_call_tree frames).2 c.call_id :=
              mem_tree_intro frames
                (fun h0 => hp (by rw [← hci]; exact h0)) hg0m hci.symm
            rw [hexp, List.count_cons, List.count_flatMap]
            have hhead : (c == f) = false := by
              rw [beq_eq_false_iff_ne]
              exact fun he => hfc he.symm
            have hsum : (((build_call_tree frames).2 c.call_id).map
                (List.count f ∘ fun ch =>
                  visitNode (build_call_tree frames).2 n ch)).sum = 1 := by
              apply sum_map_eq_one _ _ g0
                (tree_nodup frames (List.Nodup.of_map _ hnodup) c.call_id)
                hg0tree
              · exact (ih g0 f hg0m hf).1 ⟨k', hk', hj⟩
              · intro g hgmem hne
                show List.count f (visitNode (build_call_tree frames).2 n g) = 0
                apply (ih g f (mem_tree_elim frames hgmem).1 hf).2
                rintro ⟨j, hjle, hcj⟩
                have hstep := chain_step_child frames hnodup hc hgmem hcj
                have hjk : j + 1 = k' + 1 :=
                  chain_pos_unique frames rank hrank hf hstep hckfull
                have : g = g0 := by
                  have hj' : chain frames k' f = some g := by
                    rw [← Nat.succ_injective hjk]
                    exact hcj
                  rw [hj'] at hj
                  exact Option.some.inj hj.symm ▸ rfl
                exact hne this
            rw [hsum, hhead]
            simp
      · intro hno
        rw [hexp, List.count_cons, List.count_flatMap]
        have hhead : (c == f) = false := by
          rw [beq_eq_false_iff_ne]
          exact fun he => hfc he.symm
        have hsum : (((build_call_tree frames).2 c.call_id).map
            (List.count f ∘ fun ch =>
              visitNode (build_call_tree frames).2 n ch)).sum = 0 := by
          apply List.sum_eq_zero
          intro x hx
          obtain ⟨g, hgmem, rfl⟩ := List.mem_map.mp hx
          show List.count f (visitNode (build_call_tree frames).2 n g) = 0
          apply (ih g f (mem_tree_elim frames hgmem).1 hf).2
          rintro ⟨j, hjle, hcj⟩
          exact hno ⟨j + 1, by omega,
            chain_step_child frames hnodup hc hgmem hcj⟩
        rw [hsum, hhead]
        simp

end CountVisit

section RootChain

variable (frames : List CallFrame)

/-- While a chain position is defined, all earlier positions are defined. -/
theorem chain_defined_of_le {f r : CallFrame} {m : Nat}
    (h : chain frames m f = some r) :
    ∀ k ≤ m, ∃ x, chain frames k f = some x := by
  intro k hk
  cases hx : chain frames k f with
  | some x => exact ⟨x, rfl⟩
  | none =>
    exfalso
    have hm : m = k + (m - k) := by omega
    rw [hm, chain_comp, hx] at h
    cases h

/-- A defined chain position of a member is below the number of frames
(the chain never repeats a frame, by `chain_pos_unique`). -/
theorem chain_pos_lt_length (rank : Int → Nat)
    (hrank : ∀ c ∈ frames, ∀ p ∈ frames,
      p.call_id = c.parent_call_id → rank p.call_id < rank c.call_id)
    {f r : CallFrame} {m : Nat} (hf : f ∈ frames)
    (h : chain frames m f = some r) : m < frames.length := by
  have hdef := chain_defined_of_le frames h
  have hmem : ∀ k ∈ Finset.range (m + 1),
      (chain frames k f).getD f ∈ frames.toFinset := by
    intro k hk
    obtain ⟨x, hx⟩ := hdef k (by
      have := Finset.mem_range.mp hk
      omega)
    rw [hx]
    exact List.mem_toFinset.mpr (chain_mem frames hf k hx)
  have hinj : Set.InjOn (fun k => (chain frames k f).getD f)
      (Finset.range (m + 1)) := by
    intro i hi j hj hij
    have hi' := Finset.mem_range.mp (Finset.mem_coe.mp hi)
    have hj' := Finset.mem_range.mp (Finset.mem_coe.mp hj)
    obtain ⟨x, hx⟩ := hdef i (by omega)
    obtain ⟨y, hy⟩ := hdef j (by omega)
    dsimp only at hij
    rw [hx, hy] at hij
    dsimp only [Option.getD] at hij
    subst hij
    exact chain_pos_unique frames rank hrank hf hx hy
  have hcard := Finset.card_le_card_of_injOn _ hmem hinj
  rw [Finset.card_range] at hcard
  have := le_trans hcard (List.toFinset_card_le frames)
  omega

/-- Every member's ancestor chain reaches a root. -/
theorem exists_root_on_chain
    (hparent : ∀ c ∈ frames, c.parent_call_id ≠ 0 →
      ∃ p ∈ frames, p.call_id = c.parent_call_id)
    (rank : Int → Nat)
    (hrank : ∀ c ∈ frames, ∀ p ∈ frames,
      p.call_id = c.parent_call_id → rank p.call_id < rank c.call_id) :
    ∀ f ∈ frames, ∃ m r, chain frames m f = some r
      ∧ r.parent_call_id = 0 := by
  have main : ∀ n, ∀ f ∈ frames, rank f.call_id < n →
      ∃ m r, chain frames m f = some r ∧ r.parent_call_id = 0 := by
    intro n
    induction n with
    | zero => intro f _ h; omega
    | succ n ihn =>
      intro f hf hlt
      by_cases hp : f.parent_call_id = 0
      · exact ⟨0, f, rfl, hp⟩
      · obtain ⟨p, hpm, hpi⟩ := hparent f hf hp
        cases hq : findFrame frames f.parent_call_id with
        | none =>
          exfalso
          have : ∃ x ∈ frames, (x.call_id == f.parent_call_id) = true :=
            ⟨p, hpm, by simpa using hpi⟩
          rw [← List.find?_isSome] at this
          rw [show findFrame frames f.parent_call_id =
            List.find? (fun c => c.call_id == f.parent_call_id) frames
            from rfl] at hq
          rw [hq] at this
          cases this
        | some q =>
          obtain ⟨hqm, hqi⟩ := findFrame_mem_eq frames hq
          have hq1 : chain frames 1 f = some q := by
            rw [chain_succ]
            dsimp only [chain]
            rw [if_neg hp]
            exact hq
          have hqrank : rank q.call_id < rank f.call_id :=
            hrank f hf q hqm hqi
          obtain ⟨m', r, hm', hr⟩ := ihn q hqm (by omega)
          refine ⟨1 + m', r, ?_, hr⟩
          rw [chain_comp, hq1]
          exact hm'
  intro f hf
  exact main (rank f.call_id + 1) f hf (Nat.lt_succ_self _)

/-- Two roots on the same chain sit at the same position and coincide. -/
theorem root_chain_unique {f r r' : CallFrame} {m k : Nat}
    (hm : chain frames m f = some r) (hr : r.parent_call_id = 0)
    (hk : chain frames k f = some r') (hr' : r'.parent_call_id = 0) :
    r = r' := by
  rcases Nat.lt_trichotomy m k with h | h | h
  · exfalso
    have hd : k = m + ((k - m - 1) + 1) := by omega
    rw [hd, chain_comp, hm] at hk
    dsimp only at hk
    rw [chain_none_of_root frames hr] at hk
    cases hk
  · rw [h] at hm
    rw [hm] at hk
    exact Option.some.inj hk
  · exfalso
    have hd : m = k + ((m - k - 1) + 1) := by omega
    rw [hd, chain_comp, hk] at hm
    dsimp only at hm
    rw [chain_none_of_root frames hr'] at hm
    cases hm

end RootChain

/-- C3: for a flat list with pairwise-distinct identifiers whose parent
identifiers form a forest, building the tree and traversing it depth-first
pre-order from the roots visits every frame of the input exactly once (the
traversal is a permutation of the input). -/
theorem C3_preorder_visits_once :
    ∀ frames : List CallFrame, IsForest frames →
      (renderTraversal frames).Perm frames := by
  intro frames hforest
  obtain ⟨hnodup, hparent, rank, hrank⟩ := hforest
  have hfr : frames.Nodup := List.Nodup.of_map _ hnodup
  rw [List.perm_iff_count]
  intro f
  by_cases hf : f ∈ frames
  · rw [List.count_eq_one_of_mem hfr hf]
    obtain ⟨m, r0, hm, hr0⟩ := exists_root_on_chain frames hparent rank hrank f hf
    have hr0m : r0 ∈ frames := chain_mem frames hf m hm
    have hmlt : m < frames.length :=
      chain_pos_lt_length frames rank hrank hf hm
    have hr0roots : r0 ∈ (build_call_tree frames).1 :=
      (mem_roots_iff frames).mpr ⟨hr0m, hr0⟩
    have hrootsnodup : (build_call_tree frames).1.Nodup := by
      rw [build_roots_eq]
      exact hfr.filter _
    unfold renderTraversal
    rw [List.count_flatMap]
    apply sum_map_eq_one _ _ r0 hrootsnodup hr0roots
    · exact (count_visitNode frames rank hnodup hrank frames.length r0 f
        hr0m hf).1 ⟨m, by omega, hm⟩
    · intro r hr hne
      show List.count f
        (visitNode (build_call_tree frames).2 frames.length r) = 0
      apply (count_visitNode frames rank hnodup hrank frames.length r f
        ((mem_roots_iff frames).mp hr).1 hf).2
      rintro ⟨k, hk, hck⟩
      exact hne (root_chain_unique frames hck
        ((mem_roots_iff frames).mp hr).2 hm hr0)
  · have h1 : List.count f frames = 0 := List.count_eq_zero.mpr hf
    have h2 : List.count f (renderTraversal frames) = 0 := by
      rw [List.count_eq_zero]
      intro hmem
      unfold renderTraversal at hmem
      obtain ⟨r, hr, hvis⟩ := List.mem_flatMap.mp hmem
      exact hf (visitNode_mem frames frames.length r f
        ((mem_roots_iff frames).mp hr).1 hvis)
    rw [h1, h2]

/-- Witness for C3: on the two-frame forest `[f, g]` the rendered traversal
is a permutation of the input. -/
theorem C3_witness :
    (renderTraversal [fFrame, gFrame]).Perm [fFrame, gFrame] :=
  C3_preorder_visits_once [fFrame, gFrame]
    ⟨by decide, by decide,
      ⟨fun i => if i = 2 then 1 else 0, by decide⟩⟩

section OrderHelpers

/-- Filtering distributes over concatenation of blocks. -/
theorem filter_flatMap {α β : Type} (L : List α) (fn : α → List β)
    (p : β → Bool) :
    (L.flatMap fn).filter p = L.flatMap (fun a => (fn a).filter p) := by
  induction L with
  | nil => rfl
  | cons a t ih =>
    rw [List.flatMap_cons, List.flatMap_cons, List.filter_append, ih]

/-- Pointwise-equal block functions concatenate to the same list. -/
theorem flatMap_congr {α β : Type} (L : List α) (fn fn' : α → List β)
    (h : ∀ a ∈ L, fn a = fn' a) : L.flatMap fn = L.flatMap fn' := by
  induction L with
  | nil => rfl
  | cons a t ih =>
    rw [List.flatMap_cons, List.flatMap_cons, h a (List.mem_cons_self a t),
      ih (fun b hb => h b (List.mem_cons_of_mem _ hb))]

variable (frames : List CallFrame)

/-- Below a frame with non-zero parent, every visited frame has non-zero
parent (children are only ever drawn from non-zero tree keys). -/
theorem visitNode_tail_ne_zero :
    ∀ (fuel : Nat) (g x : CallFrame), g.parent_call_id ≠ 0 →
      x ∈ visitNode (build_call_tree frames).2 fuel g →
      x.parent_call_id ≠ 0 := by
  intro fuel
  induction fuel with
  | zero =>
    intro g x hg hx
    rw [show visitNode (build_call_tree frames).2 0 g = [g] from rfl] at hx
    rwa [List.mem_singleton.mp hx]
  | succ n ih =>
    intro g x hg hx
    rw [show visitNode (build_call_tree frames).2 (n + 1) g =
        g :: ((build_call_tree frames).2 g.call_id).flatMap
          (fun ch => visitNode (build_call_tree frames).2 n ch) from rfl] at hx
    rcases List.mem_cons.mp hx with h | h
    · rwa [h]
    · obtain ⟨ch, hch, hxch⟩ := List.mem_flatMap.mp h
      obtain ⟨_, hchp, hq⟩ := mem_tree_elim frames hch
      exact ih ch x (by rw [hchp]; exact hq) hxch

/-- The only parent-0 frame in a root's rendered subtree is the root
itself. -/
theorem filter_zero_visitNode (fuel : Nat) {r : CallFrame}
    (hr : r.parent_call_id = 0) :
    (visitNode (build_call_tree frames).2 fuel r).filter
      (fun c => c.parent_call_id = 0) = [r] := by
  cases fuel with
  | zero => simp [visitNode, hr]
  | succ n =>
    rw [show visitNode (build_call_tree frames).2 (n + 1) r =
        r :: ((build_call_tree frames).2 r.call_id).flatMap
          (fun ch => visitNode (build_call_tree frames).2 n ch) from rfl]
    rw [List.filter_cons, if_pos (by simpa using hr)]
    have htail : (((build_call_tree frames).2 r.call_id).flatMap
        (fun ch => visitNode (build_call_tree frames).2 n ch)).filter
          (fun c => c.parent_call_id = 0) = [] := by
      rw [List.filter_eq_nil_iff]
      intro x hx
      obtain ⟨ch, hch, hxch⟩ := List.mem_flatMap.mp hx
      obtain ⟨_, hchp, hq⟩ := mem_tree_elim frames hch
      have := visitNode_tail_ne_zero frames n ch x
        (by rw [hchp]; exact hq) hxch
      simpa using this
    rw [htail]

/-- Sibling order below one node: the parent-`p` frames in the rendered
subtree of `c` form exactly the child list of `p` when `c` is an
ancestor-or-self of the identifier-`p` frame strictly within the depth
budget, `[c]` when `c` itself has parent `p`, and nothing otherwise. -/
theorem filter_visitNode_p (rank : Int → Nat)
    (hnodup : (frames.map (fun c => c.call_id)).Nodup)
    (hrank : ∀ c ∈ frames, ∀ p ∈ frames,
      p.call_id = c.parent_call_id → rank p.call_id < rank c.call_id)
    (p : Int) (P : CallFrame) (hPm : P ∈ frames) (hPid : P.call_id = p)
    (hp0 : p ≠ 0) :
    ∀ (fuel : Nat) (c : CallFrame), c ∈ frames →
      ((∃ k, k < fuel ∧ chain frames k P = some c) →
        (visitNode (build_call_tree frames).2 fuel c).filter
          (fun g => g.parent_call_id = p) = (build_call_tree frames).2 p)
      ∧ ((¬ ∃ k, k < fuel ∧ chain frames k P = some c) →
        (visitNode (build_call_tree frames).2 fuel c).filter
          (fun g => g.parent_call_id = p) =
          (if c.parent_call_id = p then [c] else [])) := by
  have hplink : ∀ (ch : CallFrame) (j : Nat), ch.parent_call_id = p →
      chain frames j P = some ch → False := by
    intro ch j hchp hj
    have hstep : chain frames (j + 1) P = some P := by
      rw [chain_succ, hj]
      dsimp only
      rw [if_neg (by rw [hchp]; exact hp0), hchp, ← hPid]
      exact findFrame_self frames hnodup hPm
    exact Nat.succ_ne_zero j
      (chain_pos_unique frames rank hrank hPm hstep rfl)
  intro fuel
  induction fuel with
  | zero =>
    intro c hc
    constructor
    · rintro ⟨k, hk, _⟩
      omega
    · intro _
      by_cases hcp : c.parent_call_id = p <;>
        simp [visitNode, hcp]
  | succ n ih =>
    intro c hc
    have hexp : visitNode (build_call_tree frames).2 (n + 1) c =
        c :: ((build_call_tree frames).2 c.call_id).flatMap
          (fun ch => visitNode (build_call_tree frames).2 n ch) := rfl
    constructor
    · rintro ⟨k, hk, hck⟩
      have hcp : ¬ c.parent_call_id = p := fun hcp => hplink c k hcp hck
      rw [hexp, List.filter_cons, if_neg (by simpa using hcp), filter_flatMap]
      cases k with
      | zero =>
        have hcP : P = c := Option.some.inj hck
        subst hcP
        rw [hPid]
        rw [flatMap_congr _ _ (fun ch => [ch]) ?_]
        · simp
        · intro ch hch
          obtain ⟨hchm, hchp, _⟩ := mem_tree_elim frames hch
          have hno : ¬ ∃ j, j < n ∧ chain frames j P = some ch := by
            rintro ⟨j, _, hj⟩
            exact hplink ch j hchp hj
          rw [(ih ch hchm).2 hno, if_pos hchp]
      | succ k'' =>
        have hck' := hck
        rw [chain_succ] at hck'
        cases hj : chain frames k'' P with
        | none => rw [hj] at hck'; exact absurd hck' (by simp)
        | some gP =>
          rw [hj] at hck'
          dsimp only at hck'
          by_cases hgp : gP.parent_call_id = 0
          · rw [if_pos hgp] at hck'; exact absurd hck' (by simp)
          · rw [if_neg hgp] at hck'
            obtain ⟨hcm2, hci⟩ := findFrame_mem_eq frames hck'
            have hgPm : gP ∈ frames := chain_mem frames hPm k'' hj
            have hgPtree : gP ∈ (build_call_tree frames).2 c.call_id :=
              mem_tree_intro frames
                (fun h0 => hgp (by rw [← hci]; exact h0)) hgPm hci.symm
            rw [flatMap_eq_of_unique _ _ gP
              (tree_nodup frames (List.Nodup.of_map _ hnodup) c.call_id)
              hgPtree ?_]
            · exact (ih gP hgPm).1 ⟨k'', by omega, hj⟩
            · intro g hgmem hne
              have hno : ¬ ∃ j, j < n ∧ chain frames j P = some g := by
                rintro ⟨j, hjlt, hjc⟩
                have hstep := chain_step_child frames hnodup hcm2 hgmem hjc
                have : j + 1 = k'' + 1 :=
                  chain_pos_unique frames rank hrank hPm hstep hck
                have hgg : g = gP := by
                  have hj2 : chain frames k'' P = some g := by
                    rw [← Nat.succ_injective this]
                    exact hjc
                  rw [hj2] at hj
                  exact Option.some.inj hj
                exact hne hgg
              rw [(ih g (mem_tree_elim frames hgmem).1).2 hno]
              rw [if_neg]
              intro hgp2
              have hgq : g.parent_call_id = c.call_id :=
                (mem_tree_elim frames hgmem).2.1
              have hcid : c.call_id = p := by rw [← hgq]; exact hgp2
              have hcP : c = P :=
                frame_id_inj frames hnodup hcm2 hPm (by rw [hcid, hPid])
              subst hcP
              exact Nat.succ_ne_zero k''
                (chain_pos_unique frames rank hrank hPm hck rfl)
    · intro hno
      have htail : (((build_call_tree frames).2 c.call_id).flatMap
          (fun ch => visitNode (build_call_tree frames).2 n ch)).filter
            (fun g => g.parent_call_id = p) = [] := by
        rw [filter_flatMap]
        rw [List.flatMap_eq_nil_iff]
        intro ch hch
        obtain ⟨hchm, hchp, hq⟩ := mem_tree_elim frames hch
        have hnoch : ¬ ∃ j, j < n ∧ chain frames j P = some ch := by
          rintro ⟨j, hjlt, hjc⟩
          exact hno ⟨j + 1, by omega,
            chain_step_child frames hnodup hc hch hjc⟩
        rw [(ih ch hchm).2 hnoch]
        rw [if_neg]
        intro hchp2
        have hcid : c.call_id = p := by rw [← hchp]; exact hchp2
        have hcP : c = P :=
          frame_id_inj frames hnodup hc hPm (by rw [hcid, hPid])
        exact hno ⟨0, by omega, by rw [hcP]; rfl⟩
      rw [hexp, List.filter_cons]
      by_cases hcp : c.parent_call_id = p
      · rw [if_pos (by simpa using hcp), htail, if_pos hcp]
      · rw [if_neg (by simpa using hcp), htail, if_neg hcp]

end OrderHelpers

/-- C4 fails as stated, with no precondition on the input: when two frames
share identifier 5, their common child list `[a, b]` is rendered once under
each, so the parent-5 frames appear in the output as `a, b, a, b` — not in
the input's relative order `a, b` (the pair `b` before second `a` inverts
it).  Formally, the parent-5 sublist of the rendered traversal differs from
that of the input. -/
theorem C4_counterexample :
    ¬ (∀ (l : List CallFrame) (p : Int),
        (renderTraversal l).filter (fun c => c.parent_call_id = p) =
          l.filter (fun c => c.parent_call_id = p)) :=
  fun h => absurd (h [p1Frame, aFrame, p2Frame, bFrame] 5) (by decide)

/-- C4 (amended with the forest precondition of C3): for a flat list with
pairwise-distinct identifiers whose parent identifiers form a forest, and
for every parent identifier `p`, the parent-`p` frames appear in the
rendered output exactly in input order: the parent-`p` sublist of the
traversal equals the parent-`p` sublist of the input (which, by
`build_tree_eq`, is also the built child list of `p`). -/
theorem C4_sibling_order :
    ∀ (frames : List CallFrame), IsForest frames → ∀ p : Int,
      (renderTraversal frames).filter (fun c => c.parent_call_id = p) =
        frames.filter (fun c => c.parent_call_id = p) := by
  intro frames hforest p
  obtain ⟨hnodup, hparent, rank, hrank⟩ := hforest
  unfold renderTraversal
  rw [filter_flatMap]
  by_cases hp0 : p = 0
  · subst hp0
    rw [flatMap_congr _ _ (fun r => [r])
      (fun r hr => filter_zero_visitNode frames frames.length
        ((mem_roots_iff frames).mp hr).2)]
    rw [show (build_call_tree frames).1.flatMap (fun r => [r]) =
      (build_call_tree frames).1 by simp]
    rw [build_roots_eq]
  · cases hfind : findFrame frames p with
    | some P =>
      obtain ⟨hPm, hPid⟩ := findFrame_mem_eq frames hfind
      obtain ⟨m, r0, hm, hr0⟩ :=
        exists_root_on_chain frames hparent rank hrank P hPm
      have hmlt : m < frames.length :=
        chain_pos_lt_length frames rank hrank hPm hm
      have hr0m : r0 ∈ frames := chain_mem frames hPm m hm
      have hr0roots : r0 ∈ (build_call_tree frames).1 :=
        (mem_roots_iff frames).mpr ⟨hr0m, hr0⟩
      have hrootsnodup : (build_call_tree frames).1.Nodup := by
        rw [build_roots_eq]
        exact (List.Nodup.of_map _ hnodup).filter _
      have hother : ∀ r ∈ (build_call_tree frames).1, r ≠ r0 →
          (visitNode (build_call_tree frames).2 frames.length r).filter
            (fun g => g.parent_call_id = p) = [] := by
        intro r hr hne
        have hnor : ¬ ∃ k, k < frames.length ∧ chain frames k P = some r := by
          rintro ⟨k, _, hck⟩
          exact hne (root_chain_unique frames hck
            ((mem_roots_iff frames).mp hr).2 hm hr0)
        rw [(filter_visitNode_p frames rank hnodup hrank p P hPm hPid hp0
          frames.length r ((mem_roots_iff frames).mp hr).1).2 hnor]
        rw [if_neg]
        intro hrp
        exact hp0 (by rw [← hrp]; exact ((mem_roots_iff frames).mp hr).2)
      rw [flatMap_eq_of_unique _ _ r0 hrootsnodup hr0roots hother]
      rw [(filter_visitNode_p frames rank hnodup hrank p P hPm hPid hp0
        frames.length r0 hr0m).1 ⟨m, hmlt, hm⟩]
      rw [build_tree_eq, if_neg hp0]
    | none =>
      have hnone : ∀ c ∈ frames, ¬ c.parent_call_id = p := by
        intro c hcm hcp
        obtain ⟨q, hqm, hqi⟩ := hparent c hcm (by rw [hcp]; exact hp0)
        have hsome : ∃ x ∈ frames, (x.call_id == c.parent_call_id) = true :=
          ⟨q, hqm, by simpa using hqi⟩
        rw [← List.find?_isSome] at hsome
        rw [hcp] at hsome
        rw [show List.find? (fun x => x.call_id == p) frames =
          findFrame frames p from rfl, hfind] at hsome
        cases hsome
      have h2 : frames.filter (fun c => c.parent_call_id = p) = [] :=
        List.filter_eq_nil_iff.mpr
          (fun a ha => by simpa using hnone a ha)
      rw [h2, List.flatMap_eq_nil_iff]
      intro r hr
      rw [List.filter_eq_nil_iff]
      intro x hx
      have hxm : x ∈ frames := visitNode_mem frames frames.length r x
        ((mem_roots_iff frames).mp hr).1 hx
      simpa using hnone x hxm

/-- Witness for the amended C4: on the two-frame forest `[f, g]` with
parent identifier 1 the rendered sublist equals the input sublist. -/
theorem C4_witness :
    (renderTraversal [fFrame, gFrame]).filter
        (fun c => c.parent_call_id = 1) =
      [fFrame, gFrame].filter (fun c => c.parent_call_id = 1) :=
  C4_sibling_order [fFrame, gFrame]
    ⟨by decide, by decide,
      ⟨fun i => if i = 2 then 1 else 0, by decide⟩⟩ 1

/-- C8: the block `print_call_node` emits for a frame starts with the main
line; for an error frame that line colors the function name red and carries
the inline `✗ ERROR` marker, and a non-empty `error_message` yields exactly
one indented follow-up line containing the message's literal text; a frame
not flagged as an error gets an empty marker, the yellow function color, and
no message line. -/
theorem C8_error_rendering :
    ∀ (pre : String) (level : Nat) (is_last : Bool) (call : CallFrame),
      (renderFrameLines pre level is_last call).head? =
        some (mainLine pre (padOf level)
          (if is_last then "└─ " else "├─ ") call)
      ∧ (call.error = true →
          fn_color call = Fore.RED
          ∧ (Fore.RED ++ call.function).data <:+:
              (mainLine pre (padOf level)
                (if is_last then "└─ " else "├─ ") call).data
          ∧ "✗ ERROR".data <:+:
              (mainLine pre (padOf level)
                (if is_last then "└─ " else "├─ ") call).data
          ∧ (call.error_message ≠ "" →
              errorMessageLines pre (padOf level) call =
                [pre ++ padOf level ++ "  " ++ Fore.RED ++ "↳ "
                  ++ call.error_message ++ Style.RESET_ALL]
              ∧ call.error_message.data <:+:
                  (pre ++ padOf level ++ "  " ++ Fore.RED ++ "↳ "
                    ++ call.error_message ++ Style.RESET_ALL).data))
      ∧ (call.error = false →
          error_marker call = ""
          ∧ fn_color call = Fore.YELLOW
          ∧ errorMessageLines pre (padOf level) call = []) := by
  intro pre level is_last call
  refine ⟨rfl, ?_, ?_⟩
  · intro herr
    refine ⟨by rw [fn_color, if_pos herr], ?_, ?_, ?_⟩
    · refine ⟨(pre ++ padOf level ++ (if is_last then "└─ " else "├─ ")
          ++ Fore.GREEN ++ "#" ++ toString call.call_id
          ++ Style.RESET_ALL ++ " ").data,
        (Style.RESET_ALL ++ " (" ++ call.file ++ ":"
          ++ toString call.line ++ ")" ++ error_marker call).data, ?_⟩
      rw [mainLine, fn_color, if_pos herr]
      simp [String.data_append, List.append_assoc]
    · refine ⟨(pre ++ padOf level ++ (if is_last then "└─ " else "├─ ")
          ++ Fore.GREEN ++ "#" ++ toString call.call_id
          ++ Style.RESET_ALL ++ " "
          ++ fn_color call ++ call.function ++ Style.RESET_ALL ++ " ("
          ++ call.file ++ ":" ++ toString call.line ++ ")"
          ++ " " ++ Fore.RED).data,
        Style.RESET_ALL.data, ?_⟩
      rw [mainLine, error_marker, if_pos herr]
      simp [String.data_append, List.append_assoc]
    · intro hmsg
      refine ⟨by rw [errorMessageLines, if_pos ⟨herr, hmsg⟩], ?_⟩
      refine ⟨(pre ++ padOf level ++ "  " ++ Fore.RED ++ "↳ ").data,
        Style.RESET_ALL.data, ?_⟩
      simp [String.data_append, List.append_assoc]
  · intro herrf
    have hite : ¬ (call.error = true) := by rw [herrf]; exact Bool.false_ne_true
    refine ⟨by rw [error_marker, if_neg hite],
      by rw [fn_color, if_neg hite],
      by rw [errorMessageLines, if_neg (fun h => hite h.1)]⟩

/-- Witness for C8 at the concrete error frame with message "reverted": the
function name is colored red, the marker is an infix of the main line, and
the message lines are exactly the one line carrying "reverted". -/
theorem C8_witness :
    fn_color errFrame = Fore.RED
    ∧ "✗ ERROR".data <:+: (mainLine "" (padOf 0) "└─ " errFrame).data
    ∧ errorMessageLines "" (padOf 0) errFrame =
        ["" ++ padOf 0 ++ "  " ++ Fore.RED ++ "↳ " ++ "reverted"
          ++ Style.RESET_ALL] := by
  have h := (C8_error_rendering "" 0 true errFrame).2.1 rfl
  exact ⟨h.1, h.2.2.1, (h.2.2.2 (by decide)).1⟩

/-- C9 fails as stated: a missing file at the optional secondary path is
silently skipped (`if sol_file.is_file():` has no else), so the run
completes normally with exit status 0 even though a supplied input path
names a missing file. -/
theorem C9_counterexample :
    ¬ (∀ (argv : List String) (fs : String → FileState),
        (∃ path ∈ suppliedPaths argv, fs path ≠ FileState.good) →
        isErrorExit (mainOutcome argv fs) = true) :=
  fun h => absurd
    (h ["pretty_trace.py", "walnut.json", "sol.json"]
      (fun s => if s = "walnut.json" then FileState.good else FileState.missing)
      ⟨"sol.json", by decide, by decide⟩)
    (by decide)

/-- C9 (amended): a missing, unreadable or malformed-JSON file at the
required primary path always terminates the run with a non-zero exit status
and a console diagnostic; so does an unreadable or malformed-JSON file at
the supplied secondary path when that file exists; but a missing secondary
file is silently ignored and the run completes normally. -/
theorem C9_input_error_exits :
    ∀ (argv : List String) (fs : String → FileState)
      (prog primary : String) (rest : List String),
      argv = prog :: primary :: rest →
      ((fs primary ≠ FileState.good →
          isErrorExit (mainOutcome argv fs) = true)
       ∧ (∀ secondary rest', rest = secondary :: rest' →
            fs secondary ≠ FileState.good →
            fs secondary ≠ FileState.missing →
            isErrorExit (mainOutcome argv fs) = true)
       ∧ (∀ secondary rest', rest = secondary :: rest' →
            fs primary = FileState.good →
            fs secondary = FileState.missing →
            mainOutcome argv fs = MainOutcome.finished)) := by
  intro argv fs prog primary rest harg
  subst harg
  refine ⟨?_, ?_, ?_⟩
  · intro hbad
    cases hfp : fs primary with
    | missing => simp [mainOutcome, hfp, isErrorExit]
    | unreadable => simp [mainOutcome, hfp, isErrorExit]
    | badJson => simp [mainOutcome, hfp, isErrorExit]
    | good => exact absurd hfp hbad
  · intro secondary rest' hrest hbad hnotmiss
    subst hrest
    cases hfp : fs primary with
    | missing => simp [mainOutcome, hfp, isErrorExit]
    | unreadable => simp [mainOutcome, hfp, isErrorExit]
    | badJson => simp [mainOutcome, hfp, isErrorExit]
    | good =>
      cases hfs : fs secondary with
      | good => exact absurd hfs hbad
      | missing => exact absurd hfs hnotmiss
      | unreadable => simp [mainOutcome, hfp, hfs, isErrorExit]
      | badJson => simp [mainOutcome, hfp, hfs, isErrorExit]
  · intro secondary rest' hrest hgood hmiss
    subst hrest
    simp [mainOutcome, hgood, hmiss]

/-- Witness for the amended C9: with the single supplied path missing, the
run terminates with a non-zero exit. -/
theorem C9_witness :
    isErrorExit (mainOutcome ["pretty_trace.py", "trace.json"]
      (fun _ => FileState.missing)) = true :=
  ((C9_input_error_exits ["pretty_trace.py", "trace.json"]
      (fun _ => FileState.missing) "pretty_trace.py" "trace.json" [] rfl).1
    (by decide))

end PrettyTrace
